import Mathlib

/-!
# Verification of the oneshot-starter-nextjs build-orchestration protocol

The repository is a Next.js scaffold plus natural-language instructions that
define a build-orchestration protocol (Memory Store, Specification Loader,
Feature Planner, Gate Pipeline, Orchestrator).  The protocol itself is not
shipped as executable code in the repository; the definitions below are a
shallow embedding of that protocol, modelled from the specification's words,
together with a direct embedding of the dashboard page component that does
exist in `src/app/dashboard/page.tsx`.
-/

namespace Oneshot

instance {ε α : Type} [DecidableEq ε] [DecidableEq α] : DecidableEq (Except ε α) := by
  intro a b
  cases a <;> cases b
  case error.error x y =>
    exact if h : x = y then isTrue (by rw [h]) else isFalse (fun he => h (by injection he))
  case ok.ok x y =>
    exact if h : x = y then isTrue (by rw [h]) else isFalse (fun he => h (by injection he))
  case error.ok x y => exact isFalse (fun he => Except.noConfusion he)
  case ok.error x y => exact isFalse (fun he => Except.noConfusion he)

/-- Modelled from the spec: the six Feature statuses
`{NotStarted, InProgress, VerifiedFunctional, VerifiedDesigned, Complete, Blocked}`
(spec section 3, Data Model).  The orchestration code is not present in the
repository sources; the status universe is taken verbatim from the spec. -/
inductive Status where
  | NotStarted
  | InProgress
  | VerifiedFunctional
  | VerifiedDesigned
  | Complete
  | Blocked
deriving DecidableEq, Repr

/-- Gate tier of a status: `Functional = 1`, `Designed = 2`, `Complete = 3`;
the two pre-gate statuses sit at tier `0`.  `Blocked` is outside the tier
order and is given tier `0`; theorems treat it separately. -/
def tier : Status → Nat
  | .NotStarted => 0
  | .InProgress => 0
  | .VerifiedFunctional => 1
  | .VerifiedDesigned => 2
  | .Complete => 3
  | .Blocked => 0

/-- Modelled from the spec: a declared Feature of the ProjectSpec — a stable
name and its list of dependency Feature names (spec section 3). -/
structure FeatureDecl where
  name : String
  deps : List String
deriving DecidableEq, Repr

/-- Modelled from the spec: the ProjectSpec, an ordered list of declared
Features; order is declaration order (spec section 3). -/
structure ProjectSpec where
  features : List FeatureDecl
deriving DecidableEq, Repr

/-- Names of the declared features, in declaration order. -/
def ProjectSpec.names (ps : ProjectSpec) : List String :=
  ps.features.map FeatureDecl.name

/-- Modelled from the spec: the persisted MemoryRecord — architecture
decisions, per-feature statuses, schema inventory and known issues
(spec section 3).  Feature statuses are an association list keyed by the
feature's stable name. -/
structure MemoryRecord where
  decisions : List (String × String)
  statuses : List (String × Status)
  schemaInventory : List (String × List String)
  knownIssues : List String
deriving DecidableEq, Repr

/-- The empty MemoryRecord the store starts from (spec: "MemoryRecord is
created empty"). -/
def emptyRecord : MemoryRecord := ⟨[], [], [], []⟩

/-- Look up a feature's status; a feature not yet recorded is `NotStarted`
(spec: "Feature entities are created when first seen in ProjectSpec"). -/
def statusOf (m : MemoryRecord) (n : String) : Status :=
  match m.statuses.lookup n with
  | some st => st
  | none => .NotStarted

/-- Update one key of a status association list, appending if absent. -/
def setStatusList : List (String × Status) → String → Status → List (String × Status)
  | [], n, st => [(n, st)]
  | (k, v) :: rest, n, st =>
      if k = n then (k, st) :: rest else (k, v) :: setStatusList rest n st

/-- Record a feature's status in the MemoryRecord. -/
def setStatus (m : MemoryRecord) (n : String) (st : Status) : MemoryRecord :=
  { m with statuses := setStatusList m.statuses n st }

theorem lookup_setStatusList_same (l : List (String × Status)) (n : String) (st : Status) :
    (setStatusList l n st).lookup n = some st := by
  induction l with
  | nil => simp [setStatusList, List.lookup]
  | cons p rest ih =>
      obtain ⟨k, v⟩ := p
      by_cases h : k = n
      · simp [setStatusList, h, List.lookup]
      · simp only [setStatusList, if_neg h, List.lookup]
        have : (n == k) = false := by
          simp [beq_iff_eq]
          exact fun he => h he.symm
        simp [this, ih]

theorem lookup_setStatusList_other (l : List (String × Status)) (n n' : String) (st : Status)
    (hne : n' ≠ n) : (setStatusList l n st).lookup n' = l.lookup n' := by
  induction l with
  | nil =>
      simp only [setStatusList, List.lookup]
      have : (n' == n) = false := by simp [beq_iff_eq, hne]
      simp [this]
  | cons p rest ih =>
      obtain ⟨k, v⟩ := p
      by_cases h : k = n
      · subst h
        have : (n' == k) = false := by simp [beq_iff_eq, hne]
        simp [setStatusList, List.lookup, this]
      · simp only [setStatusList, if_neg h, List.lookup]
        by_cases h2 : n' = k
        · subst h2; simp
        · have : (n' == k) = false := by simp [beq_iff_eq, h2]
          simp [this, ih]

theorem statusOf_setStatus_same (m : MemoryRecord) (n : String) (st : Status) :
    statusOf (setStatus m n st) n = st := by
  simp [statusOf, setStatus, lookup_setStatusList_same]

theorem statusOf_setStatus_other (m : MemoryRecord) (n n' : String) (st : Status)
    (hne : n' ≠ n) : statusOf (setStatus m n st) n' = statusOf m n' := by
  simp [statusOf, setStatus, lookup_setStatusList_other _ _ _ _ hne]

/-- Keys of `setStatusList` are the old keys plus possibly `n`. -/
theorem mem_setStatusList_keys (l : List (String × Status)) (n : String) (st : Status)
    (p : String × Status) (hp : p ∈ setStatusList l n st) :
    p.1 = n ∨ p.1 ∈ l.map Prod.fst := by
  induction l with
  | nil => simp [setStatusList] at hp; simp [hp]
  | cons q rest ih =>
      obtain ⟨k, v⟩ := q
      by_cases h : k = n
      · simp [setStatusList, h] at hp
        rcases hp with hp | hp
        · left; simp [hp]
        · right; simp; right; exact ⟨p.2, hp⟩
      · simp [setStatusList, h] at hp
        rcases hp with hp | hp
        · right; simp [hp]
        · rcases ih hp with h1 | h1
          · left; exact h1
          · right; simp at h1 ⊢; tauto

/-- Modelled from the spec: planning-time errors (spec sections 4.2, 4.3, 7). -/
inductive PlanError where
  | CyclicDependency
  | AmbiguousSpec
deriving DecidableEq, Repr

/-- First declared feature (declaration order) all of whose dependencies are
already placed — the tie-break rule of the Planner's topological ordering
(spec section 4.3: "ties are broken by declaration order in ProjectSpec"). -/
def findReady (placed : List String) : List FeatureDecl → Option FeatureDecl
  | [] => none
  | f :: rest =>
      if f.deps.all (fun d => decide (d ∈ placed)) then some f
      else findReady placed rest

/-- Kahn-style topological ordering driver: repeatedly place the first ready
feature; if none is ready while features remain, the graph has no valid
topological order and planning fails with `CyclicDependency`. -/
def topoGo : Nat → List String → List FeatureDecl → Except PlanError (List String)
  | _, placed, [] => .ok placed
  | 0, _, _ :: _ => .error .CyclicDependency
  | fuel + 1, placed, remaining =>
      match findReady placed remaining with
      | some f => topoGo fuel (placed ++ [f.name]) (remaining.erase f)
      | none => .error .CyclicDependency

/-- Modelled from the spec: the Planner's topological ordering over the
dependency graph, ties broken by declaration order (spec section 4.3). -/
def topoSort (ps : ProjectSpec) : Except PlanError (List String) :=
  topoGo ps.features.length [] ps.features

/-- A feature is eligible for selection when its status is `NotStarted` or
`InProgress` and every dependency is `Complete` (spec section 4.3). -/
def eligibleB (m : MemoryRecord) (f : FeatureDecl) : Bool :=
  (decide (statusOf m f.name = .NotStarted) || decide (statusOf m f.name = .InProgress))
    && f.deps.all (fun d => decide (statusOf m d = .Complete))

/-- Eligibility of a feature name: the name must be declared and its
declaration eligible. -/
def eligibleName (m : MemoryRecord) (ps : ProjectSpec) (n : String) : Bool :=
  match ps.features.find? (fun f => decide (f.name = n)) with
  | some f => eligibleB m f
  | none => false

/-- Modelled from the spec: `next(MemoryRecord, ProjectSpec) -> Feature | None`
(spec section 4.3) — the first feature in the topological order whose status
is `NotStarted` or `InProgress` and whose dependencies are all `Complete`;
`none` when no such feature exists; `CyclicDependency` when the graph has no
valid topological order. -/
def next (m : MemoryRecord) (ps : ProjectSpec) : Except PlanError (Option String) :=
  match topoSort ps with
  | .error e => .error e
  | .ok order => .ok (order.find? (eligibleName m ps))

theorem findReady_some (placed : List String) (l : List FeatureDecl) (f : FeatureDecl)
    (h : findReady placed l = some f) : f ∈ l ∧ ∀ d ∈ f.deps, d ∈ placed := by
  induction l with
  | nil => simp [findReady] at h
  | cons a rest ih =>
      by_cases ha : a.deps.all (fun d => decide (d ∈ placed)) = true
      · simp [findReady, ha] at h
        subst h
        refine ⟨by simp, ?_⟩
        intro d hd
        have := List.all_eq_true.mp ha d hd
        simpa using this
      · simp only [findReady, if_neg ha] at h
        obtain ⟨h1, h2⟩ := ih h
        exact ⟨by simp [h1], h2⟩

theorem topoGo_coverage : ∀ fuel placed remaining order,
    topoGo fuel placed remaining = .ok order →
    (∀ x, x ∈ placed → x ∈ order) ∧ (∀ f, f ∈ remaining → f.name ∈ order) := by
  intro fuel
  induction fuel with
  | zero =>
      intro placed remaining order h
      cases remaining with
      | nil =>
          simp [topoGo] at h
          subst h
          exact ⟨fun x hx => hx, by simp⟩
      | cons a l => simp [topoGo] at h
  | succ n ih =>
      intro placed remaining order h
      cases remaining with
      | nil =>
          simp [topoGo] at h
          subst h
          exact ⟨fun x hx => hx, by simp⟩
      | cons a l =>
          simp only [topoGo] at h
          cases hf : findReady placed (a :: l) with
          | none => simp [hf] at h
          | some f =>
              rw [hf] at h
              obtain ⟨h1, h2⟩ := ih _ _ _ h
              constructor
              · intro x hx
                exact h1 x (by simp [hx])
              · intro g hg
                by_cases hgf : g = f
                · subst hgf
                  exact h1 g.name (by simp)
                · exact h2 g ((List.mem_erase_of_ne hgf).mpr hg)

/-- A set of declared features each of which depends on another member of the
set — the core of a dependency cycle (e.g. A depends on B and B on A). -/
def Trapped (ps : ProjectSpec) (S : List String) : Prop :=
  S ≠ [] ∧ (∀ n ∈ S, n ∈ ps.names) ∧
    ∀ f ∈ ps.features, f.name ∈ S → ∃ d ∈ f.deps, d ∈ S

theorem topoGo_trapped (ps : ProjectSpec) (S : List String) (hT : Trapped ps S) :
    ∀ fuel placed remaining,
    (∀ g ∈ remaining, g ∈ ps.features) →
    (∀ n ∈ S, n ∉ placed) →
    (∀ f ∈ ps.features, f.name ∈ S → f ∈ remaining) →
    topoGo fuel placed remaining = .error .CyclicDependency := by
  obtain ⟨hne, hdecl, hdep⟩ := hT
  intro fuel
  induction fuel with
  | zero =>
      intro placed remaining hsub hpl hrem
      cases remaining with
      | nil =>
          exfalso
          obtain ⟨n0, hn0⟩ := List.exists_mem_of_ne_nil S hne
          obtain ⟨f, hf, hfn⟩ := List.mem_map.mp (hdecl n0 hn0)
          exact (List.not_mem_nil f) (hrem f hf (by rw [hfn]; exact hn0))
      | cons a l => simp [topoGo]
  | succ k ih =>
      intro placed remaining hsub hpl hrem
      cases remaining with
      | nil =>
          exfalso
          obtain ⟨n0, hn0⟩ := List.exists_mem_of_ne_nil S hne
          obtain ⟨f, hf, hfn⟩ := List.mem_map.mp (hdecl n0 hn0)
          exact (List.not_mem_nil f) (hrem f hf (by rw [hfn]; exact hn0))
      | cons a l =>
          simp only [topoGo]
          cases hf : findReady placed (a :: l) with
          | none => rfl
          | some f =>
              obtain ⟨hfmem, hfready⟩ := findReady_some _ _ _ hf
              have hfS : f.name ∉ S := by
                intro hfS
                obtain ⟨d, hd, hdS⟩ := hdep f (hsub f hfmem) hfS
                exact hpl d hdS (hfready d hd)
              refine ih (placed ++ [f.name]) ((a :: l).erase f) ?_ ?_ ?_
              · intro g hg
                exact hsub g (List.mem_of_mem_erase hg)
              · intro n hn
                simp only [List.mem_append, List.mem_singleton]
                rintro (h1 | h1)
                · exact hpl n hn h1
                · exact hfS (h1 ▸ hn)
              · intro g hg hgS
                have hgf : g ≠ f := by
                  intro he
                  exact hfS (he ▸ hgS)
                exact (List.mem_erase_of_ne hgf).mpr (hrem g hg hgS)

/-- If the ProjectSpec contains a trapped (cyclic) set of features, the
Planner's topological ordering fails with `CyclicDependency`. -/
theorem topoSort_trapped (ps : ProjectSpec) (S : List String) (hT : Trapped ps S) :
    topoSort ps = .error .CyclicDependency :=
  topoGo_trapped ps S hT _ [] ps.features (fun _ hg => hg) (fun _ _ => by simp)
    (fun _ hf _ => hf)

theorem find?_split {α : Type} (p : α → Bool) (l : List α) (a : α)
    (h : l.find? p = some a) :
    p a = true ∧ ∃ l₁ l₂, l = l₁ ++ a :: l₂ ∧ ∀ x ∈ l₁, p x = false := by
  induction l with
  | nil => simp at h
  | cons b rest ih =>
      by_cases hb : p b = true
      · rw [List.find?_cons_of_pos _ hb] at h
        injection h with h
        subst h
        exact ⟨hb, [], rest, by simp, by simp⟩
      · rw [List.find?_cons_of_neg _ hb] at h
        obtain ⟨h1, l₁, l₂, he, hall⟩ := ih h
        refine ⟨h1, b :: l₁, l₂, by simp [he], ?_⟩
        intro x hx
        rcases List.mem_cons.mp hx with hx | hx
        · subst hx
          exact Bool.not_eq_true _ ▸ hb
        · exact hall x hx

theorem eligibleName_status (m : MemoryRecord) (ps : ProjectSpec) (n : String)
    (h : eligibleName m ps n = true) :
    (statusOf m n = .NotStarted ∨ statusOf m n = .InProgress) ∧ n ∈ ps.names := by
  unfold eligibleName at h
  cases hf : ps.features.find? (fun f => decide (f.name = n)) with
  | none => rw [hf] at h; simp at h
  | some f =>
      rw [hf] at h
      have hp := List.find?_some hf
      have hfn : f.name = n := by simpa using hp
      have hfm : f ∈ ps.features := List.mem_of_find?_eq_some hf
      unfold eligibleB at h
      have h1 := (Bool.and_eq_true _ _).mp h |>.1
      rcases (Bool.or_eq_true _ _).mp h1 with h2 | h2
      · exact ⟨Or.inl (hfn ▸ of_decide_eq_true h2), by
          simp [ProjectSpec.names]; exact ⟨f, hfm, hfn⟩⟩
      · exact ⟨Or.inr (hfn ▸ of_decide_eq_true h2), by
          simp [ProjectSpec.names]; exact ⟨f, hfm, hfn⟩⟩

/-- If every declared feature is `Complete` or `Blocked`, no feature name is
eligible. -/
theorem eligibleName_false_of_terminal (m : MemoryRecord) (ps : ProjectSpec)
    (hterm : ∀ f ∈ ps.features,
      statusOf m f.name = .Complete ∨ statusOf m f.name = .Blocked) (n : String) :
    eligibleName m ps n = false := by
  cases he : eligibleName m ps n with
  | false => rfl
  | true =>
      exfalso
      obtain ⟨hst, hmem⟩ := eligibleName_status m ps n he
      obtain ⟨f, hf, hfn⟩ := List.mem_map.mp hmem
      rcases hterm f hf with h | h <;> rw [hfn] at h <;>
        rcases hst with h2 | h2 <;> rw [h2] at h <;> exact Status.noConfusion h

/-- Modelled from the spec: the four gates of the Gate Pipeline, in their
fixed order (spec section 4.4). -/
inductive GateKind where
  | schemaGate
  | persistenceGate
  | placeholderGate
  | designGate
deriving DecidableEq, Repr

/-- The Gate Pipeline's fixed, short-circuiting order (spec section 4.4). -/
def gateSeq : List GateKind :=
  [.schemaGate, .persistenceGate, .placeholderGate, .designGate]

/-- The status tier a passing gate confers on the feature: the last of the
three functional gates confers `VerifiedFunctional`, the design gate confers
`VerifiedDesigned`; the earlier functional gates confer no new tier of their
own (spec section 4.4: "A Feature advances one status tier per gate passed,
in the fixed order Functional → Designed → Complete").  `Complete` is
conferred when the pipeline is exhausted. -/
def conferred : GateKind → Status
  | .schemaGate => .InProgress
  | .persistenceGate => .InProgress
  | .placeholderGate => .VerifiedFunctional
  | .designGate => .VerifiedDesigned

/-- Forward-only status update: `Blocked` is absorbing, and otherwise the
status only moves to `target` when that is a strictly higher gate tier
(spec section 3: "transition monotonically forward through gates (no silent
regression except explicit Blocked)"). -/
def advanceStatus (old target : Status) : Status :=
  if old = .Blocked then .Blocked
  else if tier old < tier target then target else old

/-- Advance one feature's recorded status forward to `target`. -/
def advanceFeature (m : MemoryRecord) (n : String) (target : Status) : MemoryRecord :=
  setStatus m n (advanceStatus (statusOf m n) target)

/-- Modelled from the spec: the environment the Orchestrator runs against —
the external gate checks' outcomes (per feature, per attempt, per gate) and
the invocation-scoped attempt bound (spec sections 4.4, 4.5, 6).  Gate
checks are black boxes with success/failure outcomes only. -/
structure Env where
  gatePass : String → Nat → GateKind → Bool
  attemptBound : Nat

/-- Modelled from the spec: the Orchestrator's states (spec section 4.5):
`Idle → Planning → Building → Gating → Checkpointing → Persisting →
(Planning | Done | Blocked)`.  `Building`/`Gating` carry the selected
feature and the invocation-scoped attempt counter; `Gating` carries the
pending gates of the pipeline; `Failed` carries a fatal planning error
surfaced to the caller; `BlockedTerm` is the terminal `Blocked` report. -/
inductive Phase where
  | Idle
  | Planning
  | Building (f : String) (attempt : Nat)
  | Gating (f : String) (attempt : Nat) (pending : List GateKind)
  | Checkpointing (f : String)
  | Persisting (f : String)
  | Done
  | BlockedTerm
  | Failed (e : PlanError)
deriving DecidableEq, Repr

/-- Orchestrator state: control phase, in-memory MemoryRecord, and the last
persisted MemoryRecord (the durable snapshot). -/
structure OState where
  phase : Phase
  mem : MemoryRecord
  persisted : MemoryRecord
deriving DecidableEq, Repr

/-- Does any declared feature stand at `Blocked`? Decides the terminal
report (`Done` vs terminal `Blocked`, spec section 4.5). -/
def anyBlocked (m : MemoryRecord) (ps : ProjectSpec) : Bool :=
  ps.features.any (fun f => decide (statusOf m f.name = .Blocked))

/-- Modelled from the spec: one deterministic step of the Orchestrator's
state machine (spec section 4.5).
`Idle` loads state; `Planning` asks the Planner for the next unit
(`Done`/terminal `Blocked` if none remain, `Failed` on a planning error,
else mark the selection `InProgress` and build it); `Building` delegates to
the code-generation target (single attempt per entry) and proceeds to
gating; `Gating` runs the pending gates in order, advancing one tier per
conferring gate passed, looping back to `Building` on failure up to the
attempt bound and then marking the feature `Blocked`; a fully passed
pipeline confers `Complete` and proceeds to `Checkpointing`;
checkpoint failures are non-fatal; `Persisting` atomically saves the
MemoryRecord; terminal states are absorbing. -/
def step (env : Env) (ps : ProjectSpec) (s : OState) : OState :=
  match s.phase with
  | .Idle => { s with phase := .Planning }
  | .Planning =>
      match next s.mem ps with
      | .error e => { s with phase := .Failed e }
      | .ok none =>
          if anyBlocked s.mem ps then
            { phase := .BlockedTerm, mem := s.mem, persisted := s.mem }
          else
            { phase := .Done, mem := s.mem, persisted := s.mem }
      | .ok (some f) =>
          { phase := .Building f 1, mem := setStatus s.mem f .InProgress,
            persisted := s.persisted }
  | .Building f a => { s with phase := .Gating f a gateSeq }
  | .Gating f _ [] =>
      { s with phase := .Checkpointing f,
               mem := advanceFeature s.mem f .Complete }
  | .Gating f a (g :: rest) =>
      if env.gatePass f a g then
        { s with phase := .Gating f a rest,
                 mem := advanceFeature s.mem f (conferred g) }
      else if a < env.attemptBound then
        { s with phase := .Building f (a + 1) }
      else
        { s with phase := .Planning, mem := setStatus s.mem f .Blocked }
  | .Checkpointing f => { s with phase := .Persisting f }
  | .Persisting _ => { phase := .Planning, mem := s.mem, persisted := s.mem }
  | .Done => s
  | .BlockedTerm => s
  | .Failed _ => s

/-- Run the Orchestrator for `n` steps. -/
def run (env : Env) (ps : ProjectSpec) : Nat → OState → OState
  | 0, s => s
  | n + 1, s => run env ps n (step env ps s)

/-- The initial state of an invocation: `Idle` with the loaded MemoryRecord
as both in-memory and persisted snapshot. -/
def initState (m : MemoryRecord) : OState := ⟨.Idle, m, m⟩

theorem run_succ_outer (env : Env) (ps : ProjectSpec) (n : Nat) (s : OState) :
    run env ps (n + 1) s = step env ps (run env ps n s) := by
  induction n generalizing s with
  | zero => rfl
  | succ k ih =>
      show run env ps (k + 1) (step env ps s) = _
      rw [ih (step env ps s)]
      rfl

theorem run_invariant (env : Env) (ps : ProjectSpec) (P : OState → Prop)
    (hstep : ∀ s, P s → P (step env ps s)) :
    ∀ n s, P s → P (run env ps n s) := by
  intro n
  induction n with
  | zero => intro s h; exact h
  | succ k ih => intro s h; exact ih _ (hstep s h)

/-- Modelled from the spec: the content of one file of the persisted-state
store.  A file is absent, mid-write (torn, hence unparseable), or holds a
complete serialized MemoryRecord (spec sections 4.1, 5). -/
inductive FileContent where
  | absent
  | torn
  | complete (m : MemoryRecord)
deriving DecidableEq, Repr

/-- Modelled from the spec: the durable state of the Memory Store — the main
persisted-state file and the temporary file used by write-temp-then-rename
(spec section 4.1). -/
structure DiskState where
  main : FileContent
  temp : FileContent
deriving DecidableEq, Repr

/-- Modelled from the spec: load-time error `CorruptState` for an
unreadable MemoryRecord (spec sections 4.1, 7). -/
inductive LoadError where
  | CorruptState
deriving DecidableEq, Repr

/-- Modelled from the spec: `load() -> MemoryRecord` — reads the main file;
a missing file yields the initial empty record, an unparseable (torn) file
fails with `CorruptState` (spec section 4.1). -/
def load (d : DiskState) : Except LoadError MemoryRecord :=
  match d.main with
  | .complete m => .ok m
  | .absent => .ok emptyRecord
  | .torn => .error .CorruptState

/-- Modelled from the spec: the orchestrator's recovery wrapper around
`load` — on `CorruptState` it falls back to the empty MemoryRecord instead
of crashing (spec section 4.1: "the orchestrator must then fall back to an
empty record and flag Blocked on no features, never crash"). -/
def loadOrRecover (d : DiskState) : MemoryRecord :=
  match load d with
  | .ok m => m
  | .error _ => emptyRecord

/-- Modelled from the spec: one micro-step of `save(MemoryRecord)` with
write-temp-then-rename semantics (spec section 4.1): step 0 opens the temp
file (leaving it torn), step 1 finishes writing the record to the temp
file, step 2 atomically renames the temp file over the main file. -/
def saveStep (new : MemoryRecord) (i : Nat) (d : DiskState) : DiskState :=
  match i with
  | 0 => { d with temp := .torn }
  | 1 => { d with temp := .complete new }
  | _ => { main := d.temp, temp := .absent }

/-- The disk state after the first `k` micro-steps of `save new` — i.e. the
state observed if the process crashes after `k` micro-steps. -/
def saveUpTo (new : MemoryRecord) : Nat → DiskState → DiskState
  | 0, d => d
  | k + 1, d => saveStep new k (saveUpTo new k d)

/-- Modelled from the spec: `save(MemoryRecord) -> void`, the atomic replace
— all three micro-steps of write-temp-then-rename (spec section 4.1). -/
def save (new : MemoryRecord) (d : DiskState) : DiskState := saveUpTo new 3 d

/-- Modelled from the spec: prune(ProjectSpec) — drop Feature entries no
longer declared in the current ProjectSpec (spec sections 3, 4.1). -/
def prune (m : MemoryRecord) (ps : ProjectSpec) : MemoryRecord :=
  { m with statuses := m.statuses.filter (fun pr => decide (pr.1 ∈ ps.names)) }

/-- A MemoryRecord references only features declared in the ProjectSpec. -/
def ReferencesOnly (ps : ProjectSpec) (m : MemoryRecord) : Prop :=
  ∀ pr ∈ m.statuses, pr.1 ∈ ps.names

/-- Modelled from the spec: the four declared criteria of the
Design-Hierarchy Gate's checklist (spec section 4.4): a visual hero is
present, rendering is not uniform-weight, the minimum contrast ratio is
met, and the responsive breakpoints are exercised. -/
inductive DesignCriterion where
  | visualHero
  | uniformWeightFree
  | contrastRatioMet
  | responsiveBreakpoints
deriving DecidableEq, Repr

/-- The declared checklist, in evaluation order. -/
def designChecklist : List DesignCriterion :=
  [.visualHero, .uniformWeightFree, .contrastRatioMet, .responsiveBreakpoints]

/-- Modelled from the spec: the evaluation of one Feature's artifacts
against the design checklist — one pass/fail score per declared criterion
(spec section 4.4). -/
structure DesignEval where
  visualHero : Bool
  uniformWeightFree : Bool
  contrastRatioMet : Bool
  responsiveBreakpoints : Bool
deriving DecidableEq, Repr

/-- Score of one criterion in an evaluation. -/
def criterionPass (r : DesignEval) : DesignCriterion → Bool
  | .visualHero => r.visualHero
  | .uniformWeightFree => r.uniformWeightFree
  | .contrastRatioMet => r.contrastRatioMet
  | .responsiveBreakpoints => r.responsiveBreakpoints

/-- Modelled from the spec: the gate-time failure `DesignIncomplete`, naming
the failing criterion (spec sections 4.4, 7). -/
inductive DesignGateFailure where
  | DesignIncomplete (c : DesignCriterion)
deriving DecidableEq, Repr

/-- Modelled from the spec: the Design-Hierarchy Gate — pass requires every
declared criterion to score pass; any failing criterion yields
`DesignIncomplete` naming it (spec section 4.4). -/
def designGateRun (r : DesignEval) : Except DesignGateFailure Unit :=
  match designChecklist.find? (fun c => !criterionPass r c) with
  | some c => .error (.DesignIncomplete c)
  | none => .ok ()

/-- Embedded from `src/app/dashboard/page.tsx`: the signed-in user carried
by the session (`session.user.email`, `session.user.name`). -/
structure User where
  email : String
  name : String
deriving DecidableEq, Repr

/-- Embedded from `src/app/dashboard/page.tsx`: the session returned by
`auth.api.getSession` (absent when the lookup returns no session). -/
structure Session where
  user : User
deriving DecidableEq, Repr

/-- Result of rendering a page: either a redirect to a path, or a rendered
page carrying its text content. -/
inductive PageResult where
  | redirectTo (path : String)
  | render (texts : List String)
deriving DecidableEq, Repr

/-- Embedded from `src/app/dashboard/page.tsx` (`DashboardPage`): when the
session lookup returns no session the page redirects to `/sign-in`;
otherwise it renders the dashboard header with the user's email and the
welcome heading with the user's name. -/
def DashboardPage (session : Option Session) : PageResult :=
  match session with
  | none => .redirectTo "/sign-in"
  | some s =>
      .render ["Dashboard", s.user.email, "Welcome, " ++ s.user.name,
        "This is your protected dashboard. Build something great."]

/-- An all-pass gate environment with the spec's attempt bound of 3. -/
def envAllPass : Env := ⟨fun _ _ _ => true, 3⟩

/-- An environment whose gates all fail, with attempt bound 3. -/
def envAllFail : Env := ⟨fun _ _ _ => false, 3⟩

/-- A two-feature ProjectSpec: `A` with no dependencies, `B` depending on
`A` (declaration order `A`, `B`). -/
def specAB : ProjectSpec := ⟨[⟨"A", []⟩, ⟨"B", ["A"]⟩]⟩

/-- A one-feature ProjectSpec. -/
def specOne : ProjectSpec := ⟨[⟨"A", []⟩]⟩

/-- The cyclic ProjectSpec of the spec's test property: `A` depends on `B`
and `B` depends on `A`. -/
def specCyc : ProjectSpec := ⟨[⟨"A", ["B"]⟩, ⟨"B", ["A"]⟩]⟩

/-- A sample non-empty MemoryRecord. -/
def sampleRecord : MemoryRecord :=
  ⟨[("architecture", "app-router")], [("A", .Complete)], [("user", ["id", "email"])], []⟩

/-- C4: the Memory Store's save is atomic — for every crash point during the
write-temp-then-rename save (hence during the orchestrator's `Persisting`
state, which invokes it), a subsequent load observes either the complete old
MemoryRecord or the complete new one, never a torn or partially written
record. -/
theorem save_atomic_old_or_new (old new : MemoryRecord) (t : FileContent) (k : Nat)
    (hk : k ≤ 3) :
    load (saveUpTo new k ⟨.complete old, t⟩) = .ok old ∨
    load (saveUpTo new k ⟨.complete old, t⟩) = .ok new := by
  interval_cases k
  · left; rfl
  · left; rfl
  · left; rfl
  · right; rfl

/-- Witness for C4: crashing one micro-step into a save of `sampleRecord`
over the empty record still loads a complete record. -/
theorem save_atomic_old_or_new_witness :
    load (saveUpTo sampleRecord 1 ⟨.complete emptyRecord, .absent⟩) = .ok emptyRecord ∨
    load (saveUpTo sampleRecord 1 ⟨.complete emptyRecord, .absent⟩) = .ok sampleRecord :=
  save_atomic_old_or_new emptyRecord sampleRecord .absent 1 (by decide)

/-- C7: if the persisted MemoryRecord cannot be parsed, `load` fails with
`CorruptState`, and the orchestrator's recovery falls back to the empty
MemoryRecord, in which no feature is marked `Blocked`; recovery always
produces a record (never crashes). -/
theorem load_corrupt_recovery (d : DiskState) :
    (d.main = .torn → load d = .error .CorruptState) ∧
    (load d = .error .CorruptState →
      loadOrRecover d = emptyRecord ∧ ∀ n, statusOf (loadOrRecover d) n ≠ .Blocked) ∧
    (loadOrRecover d = emptyRecord ∨ ∃ m, load d = .ok m ∧ loadOrRecover d = m) := by
  obtain ⟨mn, tp⟩ := d
  cases mn with
  | absent =>
      refine ⟨?_, ?_, Or.inl rfl⟩
      · intro h
        exact FileContent.noConfusion h
      · intro h
        exact Except.noConfusion h
  | torn =>
      refine ⟨fun _ => rfl, fun _ => ⟨rfl, ?_⟩, Or.inl rfl⟩
      intro n h
      simp [loadOrRecover, load, emptyRecord, statusOf, List.lookup] at h
  | complete m =>
      refine ⟨?_, ?_, Or.inr ⟨m, rfl, rfl⟩⟩
      · intro h
        exact FileContent.noConfusion h
      · intro h
        exact Except.noConfusion h

/-- Witness for C7: a torn main file loads as `CorruptState` and recovers to
the empty record. -/
theorem load_corrupt_recovery_witness :
    load ⟨.torn, .absent⟩ = .error .CorruptState ∧
    loadOrRecover ⟨.torn, .absent⟩ = emptyRecord :=
  ⟨(load_corrupt_recovery ⟨.torn, .absent⟩).1 rfl,
   ((load_corrupt_recovery ⟨.torn, .absent⟩).2.1 rfl).1⟩

/-- C9: the Design-Hierarchy Gate passes an evaluation exactly when every
declared checklist criterion passes, and any failure names a criterion that
indeed fails and is on the declared checklist. -/
theorem design_gate_checklist (r : DesignEval) :
    (designGateRun r = .ok () ↔ ∀ c ∈ designChecklist, criterionPass r c = true) ∧
    (∀ c, designGateRun r = .error (.DesignIncomplete c) →
      criterionPass r c = false ∧ c ∈ designChecklist) := by
  obtain ⟨b1, b2, b3, b4⟩ := r
  cases b1 <;> cases b2 <;> cases b3 <;> cases b4 <;>
    exact ⟨by decide, by intro c h; cases c <;> revert h <;> decide⟩

/-- Witness for C9: an evaluation failing only the uniform-weight criterion
is rejected naming exactly that criterion. -/
theorem design_gate_checklist_witness :
    (designGateRun ⟨true, false, true, true⟩ = .ok () ↔
      ∀ c ∈ designChecklist, criterionPass ⟨true, false, true, true⟩ c = true) ∧
    (∀ c, designGateRun ⟨true, false, true, true⟩ = .error (.DesignIncomplete c) →
      criterionPass ⟨true, false, true, true⟩ c = false ∧ c ∈ designChecklist) :=
  design_gate_checklist ⟨true, false, true, true⟩

/-- C10: with no session the dashboard page redirects to `/sign-in` and
renders nothing; with a session it renders the signed-in user's email and
welcome-by-name and does not redirect. -/
theorem dashboard_page_auth (session : Option Session) :
    (session = none →
      DashboardPage session = .redirectTo "/sign-in" ∧
      ∀ ts, DashboardPage session ≠ .render ts) ∧
    (∀ s, session = some s →
      (∃ ts, DashboardPage session = .render ts ∧
        s.user.email ∈ ts ∧ ("Welcome, " ++ s.user.name) ∈ ts) ∧
      ∀ p, DashboardPage session ≠ .redirectTo p) := by
  constructor
  · rintro rfl
    exact ⟨rfl, fun ts h => PageResult.noConfusion h⟩
  · rintro s rfl
    refine ⟨⟨_, rfl, ?_, ?_⟩, fun p h => PageResult.noConfusion h⟩
    · simp
    · simp

/-- Witness for C10: the page redirects for the anonymous request and
renders the user's email and name for a signed-in request. -/
theorem dashboard_page_auth_witness :
    (DashboardPage none = .redirectTo "/sign-in" ∧
      ∀ ts, DashboardPage none ≠ .render ts) ∧
    (∃ ts, DashboardPage (some ⟨⟨"ada@example.com", "Ada"⟩⟩) = .render ts ∧
      "ada@example.com" ∈ ts ∧ ("Welcome, " ++ "Ada") ∈ ts) ∧
    ∀ p, DashboardPage (some ⟨⟨"ada@example.com", "Ada"⟩⟩) ≠ .redirectTo p :=
  ⟨(dashboard_page_auth none).1 rfl,
   ((dashboard_page_auth (some ⟨⟨"ada@example.com", "Ada"⟩⟩)).2 _ rfl).1,
   ((dashboard_page_auth (some ⟨⟨"ada@example.com", "Ada"⟩⟩)).2 _ rfl).2⟩

theorem next_some_eligibleName (m : MemoryRecord) (ps : ProjectSpec) (n : String)
    (h : next m ps = .ok (some n)) : eligibleName m ps n = true := by
  unfold next at h
  cases ht : topoSort ps with
  | error e =>
      rw [ht] at h
      exact Except.noConfusion h
  | ok order =>
      rw [ht] at h
      injection h with h
      exact List.find?_some h

theorem eligibleName_deps (m : MemoryRecord) (ps : ProjectSpec) (n : String)
    (h : eligibleName m ps n = true) :
    ∃ fd ∈ ps.features, fd.name = n ∧ ∀ d ∈ fd.deps, statusOf m d = .Complete := by
  unfold eligibleName at h
  cases hf : ps.features.find? (fun f => decide (f.name = n)) with
  | none => rw [hf] at h; simp at h
  | some f =>
      rw [hf] at h
      have hfn : f.name = n := by simpa using List.find?_some hf
      have hfm : f ∈ ps.features := List.mem_of_find?_eq_some hf
      unfold eligibleB at h
      have h2 := (Bool.and_eq_true _ _).mp h |>.2
      refine ⟨f, hfm, hfn, ?_⟩
      intro d hd
      exact of_decide_eq_true (List.all_eq_true.mp h2 d hd)

/-- C2 counterexample: with `A` Blocked and `B` (depending on `A`) still
`NotStarted`, the Planner returns `none` although not every feature is
`Complete` or `Blocked` — the claimed "exactly when" fails. -/
theorem planner_none_not_only_terminal :
    next ⟨[], [("A", .Blocked)], [], []⟩ specAB = .ok none ∧
    ¬ ∀ f ∈ specAB.features,
        statusOf ⟨[], [("A", .Blocked)], [], []⟩ f.name = .Complete ∨
        statusOf ⟨[], [("A", .Blocked)], [], []⟩ f.name = .Blocked := by
  decide

/-- C2 (amended): given the topological order (ties broken by declaration
order) exists, the Planner returns the first feature in that order whose
status is `NotStarted` or `InProgress` and whose dependencies are all
`Complete`; it returns `none` exactly when no declared feature is eligible
— in particular whenever every feature is `Complete` or `Blocked` (the
converse of that particular case fails, see the counterexample: a
non-terminal feature with a `Blocked` dependency is ineligible). -/
theorem planner_next_characterization (m : MemoryRecord) (ps : ProjectSpec)
    (order : List String) (h : topoSort ps = .ok order) :
    (∀ f, next m ps = .ok (some f) →
      (statusOf m f = .NotStarted ∨ statusOf m f = .InProgress) ∧
      (∃ fd ∈ ps.features, fd.name = f ∧ ∀ d ∈ fd.deps, statusOf m d = .Complete) ∧
      ∃ l₁ l₂, order = l₁ ++ f :: l₂ ∧ ∀ x ∈ l₁, eligibleName m ps x = false) ∧
    (next m ps = .ok none ↔ ∀ n ∈ ps.names, eligibleName m ps n = false) ∧
    ((∀ f ∈ ps.features, statusOf m f.name = .Complete ∨ statusOf m f.name = .Blocked) →
      next m ps = .ok none) := by
  have hnext : next m ps = .ok (order.find? (eligibleName m ps)) := by
    unfold next
    rw [h]
  have h2 : next m ps = .ok none ↔ ∀ n ∈ ps.names, eligibleName m ps n = false := by
    constructor
    · intro hn n hmem
      rw [hnext] at hn
      injection hn with hn
      obtain ⟨f, hf, hfn⟩ := List.mem_map.mp hmem
      have hord : n ∈ order := hfn ▸ (topoGo_coverage _ _ _ _ h).2 f hf
      cases hel : eligibleName m ps n with
      | false => rfl
      | true =>
          exfalso
          have := List.find?_eq_none.mp hn n hord
          rw [hel] at this
          exact this rfl
    · intro hall
      rw [hnext]
      have : order.find? (eligibleName m ps) = none := by
        apply List.find?_eq_none.mpr
        intro x _ hx
        obtain ⟨_, hmem⟩ := eligibleName_status m ps x hx
        rw [hall x hmem] at hx
        exact Bool.noConfusion hx
      rw [this]
  refine ⟨?_, h2, fun hterm => h2.mpr
    (fun n _ => eligibleName_false_of_terminal m ps hterm n)⟩
  intro f hf
  rw [hnext] at hf
  injection hf with hf
  have he := List.find?_some hf
  obtain ⟨hst, _⟩ := eligibleName_status m ps f he
  obtain ⟨_, l₁, l₂, hsplit, hall⟩ := find?_split _ _ _ hf
  exact ⟨hst, eligibleName_deps m ps f he, l₁, l₂, hsplit, hall⟩

/-- Witness for the amended C2: with both features `Complete` the plan is
exhausted. -/
theorem planner_next_characterization_witness :
    next ⟨[], [("A", .Complete), ("B", .Complete)], [], []⟩ specAB = .ok none :=
  (planner_next_characterization ⟨[], [("A", .Complete), ("B", .Complete)], [], []⟩
    specAB ["A", "B"] (by decide)).2.2 (by decide)

theorem run_add (env : Env) (ps : ProjectSpec) (a b : Nat) (s : OState) :
    run env ps (a + b) s = run env ps b (run env ps a s) := by
  induction a generalizing s with
  | zero => simp [run]
  | succ k ih =>
      rw [show k + 1 + b = k + b + 1 from by omega]
      show run env ps (k + b) (step env ps s) = _
      rw [ih (step env ps s)]
      rfl

theorem run_fix (env : Env) (ps : ProjectSpec) (s : OState) (hs : step env ps s = s)
    (n : Nat) : run env ps n s = s := by
  induction n with
  | zero => rfl
  | succ k ih =>
      show run env ps k (step env ps s) = s
      rw [hs, ih]

/-- One failing attempt below the bound: build, fail the first gate, loop
back to `Building` with the attempt counter incremented and the
MemoryRecord untouched. -/
theorem retry_loop_step (env : Env) (ps : ProjectSpec) (f : String) (m p : MemoryRecord)
    (a : Nat) (hfail : env.gatePass f a .schemaGate = false) (ha : a < env.attemptBound) :
    run env ps 2 ⟨.Building f a, m, p⟩ = ⟨.Building f (a + 1), m, p⟩ := by
  simp [run, step, gateSeq, hfail, ha]

/-- One failing attempt at the bound: build, fail the first gate, mark the
feature `Blocked` and move on to `Planning`. -/
theorem retry_block_step (env : Env) (ps : ProjectSpec) (f : String) (m p : MemoryRecord)
    (a : Nat) (hfail : env.gatePass f a .schemaGate = false) (ha : ¬ a < env.attemptBound) :
    run env ps 2 ⟨.Building f a, m, p⟩ = ⟨.Planning, setStatus m f .Blocked, p⟩ := by
  simp [run, step, gateSeq, hfail, ha]

/-- C3: with a gate that fails on every attempt, the feature under gating
re-enters `Building` once per attempt up to the attempt bound (the j-th
retry shows `Building` attempt `1 + j`, with the MemoryRecord untouched),
and after exactly `attemptBound` Building attempts it is marked `Blocked`
and control returns to `Planning`; the Planner can then never select the
blocked feature again. -/
theorem bounded_retry (env : Env) (ps : ProjectSpec) (f : String) (m p : MemoryRecord)
    (hb : 1 ≤ env.attemptBound)
    (hfail : ∀ a, env.gatePass f a .schemaGate = false) :
    (∀ j, j < env.attemptBound →
      run env ps (2 * j) ⟨.Building f 1, m, p⟩ = ⟨.Building f (1 + j), m, p⟩) ∧
    run env ps (2 * env.attemptBound) ⟨.Building f 1, m, p⟩ =
      ⟨.Planning, setStatus m f .Blocked, p⟩ ∧
    statusOf (setStatus m f .Blocked) f = .Blocked ∧
    (∀ g, next (setStatus m f .Blocked) ps = .ok (some g) → g ≠ f) := by
  have hpart1 : ∀ j, j < env.attemptBound →
      run env ps (2 * j) ⟨.Building f 1, m, p⟩ = ⟨.Building f (1 + j), m, p⟩ := by
    intro j
    induction j with
    | zero => intro _; rfl
    | succ k ih =>
        intro hk
        have hk' : k < env.attemptBound := Nat.lt_of_succ_lt hk
        rw [show 2 * (k + 1) = 2 * k + 2 from by ring, run_add, ih hk',
          retry_loop_step env ps f m p (1 + k) (hfail (1 + k)) (by omega),
          show 1 + k + 1 = 1 + (k + 1) from by omega]
  refine ⟨hpart1, ?_, statusOf_setStatus_same m f .Blocked, ?_⟩
  · rw [show 2 * env.attemptBound = 2 * (env.attemptBound - 1) + 2 from by omega,
      run_add, hpart1 _ (by omega),
      show 1 + (env.attemptBound - 1) = env.attemptBound from by omega]
    exact retry_block_step env ps f m p env.attemptBound (hfail _) (by omega)
  · intro g hg hgf
    subst hgf
    have he := next_some_eligibleName _ ps g hg
    obtain ⟨hst, _⟩ := eligibleName_status _ ps g he
    rw [statusOf_setStatus_same] at hst
    rcases hst with h | h <;> exact Status.noConfusion h

/-- Witness for C3: with the always-failing environment (bound 3), feature
`A` shows its third `Building` attempt after 4 steps and is `Blocked` with
control back in `Planning` after 6 steps. -/
theorem bounded_retry_witness :
    run envAllFail specAB (2 * envAllFail.attemptBound)
        ⟨.Building "A" 1, emptyRecord, emptyRecord⟩ =
      ⟨.Planning, setStatus emptyRecord "A" .Blocked, emptyRecord⟩ ∧
    run envAllFail specAB (2 * 2) ⟨.Building "A" 1, emptyRecord, emptyRecord⟩ =
      ⟨.Building "A" (1 + 2), emptyRecord, emptyRecord⟩ :=
  ⟨(bounded_retry envAllFail specAB "A" emptyRecord emptyRecord (by decide)
      (fun _ => rfl)).2.1,
   (bounded_retry envAllFail specAB "A" emptyRecord emptyRecord (by decide)
      (fun _ => rfl)).1 2 (by decide)⟩

theorem next_error (m : MemoryRecord) (ps : ProjectSpec) (e : PlanError)
    (h : topoSort ps = .error e) : next m ps = .error e := by
  unfold next
  rw [h]

/-- C6: for a ProjectSpec whose dependency graph has a cycle (a trapped set
of declared features each depending on another member, e.g. A ↔ B),
planning fails with `CyclicDependency` for every MemoryRecord, the state
machine surfaces the error as the terminal `Failed CyclicDependency` by the
second step, and no reachable state ever has a feature in `Building` (or
`Gating`). -/
theorem cyclic_no_building (ps : ProjectSpec) (S : List String) (hT : Trapped ps S)
    (env : Env) (m : MemoryRecord) (n : Nat) :
    next m ps = .error .CyclicDependency ∧
    (∀ f a pend, (run env ps n (initState m)).phase ≠ .Building f a ∧
      (run env ps n (initState m)).phase ≠ .Gating f a pend) ∧
    (2 ≤ n → run env ps n (initState m) = ⟨.Failed .CyclicDependency, m, m⟩) := by
  have htopo := topoSort_trapped ps S hT
  have hnext : ∀ m' : MemoryRecord, next m' ps = .error .CyclicDependency :=
    fun m' => next_error m' ps _ htopo
  have hinv : ∀ k, (run env ps k (initState m)).phase = .Idle ∨
      (run env ps k (initState m)).phase = .Planning ∨
      (run env ps k (initState m)).phase = .Failed .CyclicDependency := by
    intro k
    refine run_invariant env ps
      (fun s => s.phase = .Idle ∨ s.phase = .Planning ∨
        s.phase = .Failed .CyclicDependency) ?_ k _ (Or.inl rfl)
    intro s hs
    obtain ⟨ph, mem, pers⟩ := s
    simp only at hs
    rcases hs with h | h | h <;> subst h
    · exact Or.inr (Or.inl rfl)
    · simp [step, hnext mem]
    · exact Or.inr (Or.inr rfl)
  refine ⟨hnext m, ?_, ?_⟩
  · intro f a pend
    constructor <;> intro hc <;> rcases hinv n with h | h | h <;> rw [hc] at h <;>
      exact Phase.noConfusion h
  · intro h2
    obtain ⟨k, rfl⟩ : ∃ k, n = 2 + k := ⟨n - 2, by omega⟩
    rw [run_add]
    have hrun2 : run env ps 2 (initState m) = ⟨.Failed .CyclicDependency, m, m⟩ := by
      show step env ps (step env ps (initState m)) = _
      simp [step, initState, hnext m]
    rw [hrun2]
    exact run_fix env ps _ rfl k

/-- Witness for C6: the concrete two-cycle `A ↔ B` is rejected at planning
time and the machine is terminally `Failed CyclicDependency` after 5 steps,
never having entered `Building`. -/
theorem cyclic_no_building_witness :
    next emptyRecord specCyc = .error .CyclicDependency ∧
    run envAllPass specCyc 5 (initState emptyRecord) =
      ⟨.Failed .CyclicDependency, emptyRecord, emptyRecord⟩ ∧
    ∀ f a, (run envAllPass specCyc 5 (initState emptyRecord)).phase ≠ .Building f a :=
  ⟨(cyclic_no_building specCyc ["A", "B"] (by unfold Trapped; decide) envAllPass emptyRecord 5).1,
   (cyclic_no_building specCyc ["A", "B"] (by unfold Trapped; decide) envAllPass emptyRecord 5).2.2
     (by decide),
   fun f a => ((cyclic_no_building specCyc ["A", "B"] (by unfold Trapped; decide) envAllPass
     emptyRecord 5).2.1 f a []).1⟩

theorem step_Planning_error (env : Env) (ps : ProjectSpec) (mem pers : MemoryRecord)
    (e : PlanError) (h : next mem ps = .error e) :
    step env ps ⟨.Planning, mem, pers⟩ = ⟨.Failed e, mem, pers⟩ := by
  simp [step, h]

theorem step_Planning_none_blocked (env : Env) (ps : ProjectSpec) (mem pers : MemoryRecord)
    (h : next mem ps = .ok none) (hb : anyBlocked mem ps = true) :
    step env ps ⟨.Planning, mem, pers⟩ = ⟨.BlockedTerm, mem, mem⟩ := by
  simp [step, h, hb]

theorem step_Planning_none_done (env : Env) (ps : ProjectSpec) (mem pers : MemoryRecord)
    (h : next mem ps = .ok none) (hb : anyBlocked mem ps = false) :
    step env ps ⟨.Planning, mem, pers⟩ = ⟨.Done, mem, mem⟩ := by
  simp [step, h, hb]

theorem step_Planning_some (env : Env) (ps : ProjectSpec) (mem pers : MemoryRecord)
    (f : String) (h : next mem ps = .ok (some f)) :
    step env ps ⟨.Planning, mem, pers⟩ =
      ⟨.Building f 1, setStatus mem f .InProgress, pers⟩ := by
  simp [step, h]

theorem step_Gating_pass (env : Env) (ps : ProjectSpec) (mem pers : MemoryRecord)
    (f : String) (a : Nat) (g : GateKind) (rest : List GateKind)
    (hg : env.gatePass f a g = true) :
    step env ps ⟨.Gating f a (g :: rest), mem, pers⟩ =
      ⟨.Gating f a rest, advanceFeature mem f (conferred g), pers⟩ := by
  simp [step, hg]

theorem step_Gating_fail_retry (env : Env) (ps : ProjectSpec) (mem pers : MemoryRecord)
    (f : String) (a : Nat) (g : GateKind) (rest : List GateKind)
    (hg : env.gatePass f a g = false) (ha : a < env.attemptBound) :
    step env ps ⟨.Gating f a (g :: rest), mem, pers⟩ = ⟨.Building f (a + 1), mem, pers⟩ := by
  simp [step, hg, ha]

theorem step_Gating_fail_block (env : Env) (ps : ProjectSpec) (mem pers : MemoryRecord)
    (f : String) (a : Nat) (g : GateKind) (rest : List GateKind)
    (hg : env.gatePass f a g = false) (ha : ¬ a < env.attemptBound) :
    step env ps ⟨.Gating f a (g :: rest), mem, pers⟩ =
      ⟨.Planning, setStatus mem f .Blocked, pers⟩ := by
  simp [step, hg, ha]

theorem ReferencesOnly_setStatus (ps : ProjectSpec) (m : MemoryRecord) (f : String)
    (st : Status) (hm : ReferencesOnly ps m) (hf : f ∈ ps.names) :
    ReferencesOnly ps (setStatus m f st) := by
  intro pr hpr
  rcases mem_setStatusList_keys m.statuses f st pr hpr with h | h
  · rw [h]; exact hf
  · obtain ⟨q, hq, hfst⟩ := List.mem_map.mp h
    rw [← hfst]
    exact hm q hq

theorem next_some_declared (m : MemoryRecord) (ps : ProjectSpec) (n : String)
    (h : next m ps = .ok (some n)) : n ∈ ps.names :=
  (eligibleName_status m ps n (next_some_eligibleName m ps n h)).2

/-- Invariant for C8: both record snapshots reference only declared
features, and any feature held by the control phase is declared. -/
def RefInv (ps : ProjectSpec) (s : OState) : Prop :=
  ReferencesOnly ps s.mem ∧ ReferencesOnly ps s.persisted ∧
  (∀ f a, s.phase = .Building f a → f ∈ ps.names) ∧
  (∀ f a pend, s.phase = .Gating f a pend → f ∈ ps.names) ∧
  (∀ f, s.phase = .Checkpointing f → f ∈ ps.names) ∧
  (∀ f, s.phase = .Persisting f → f ∈ ps.names)

theorem RefInv_step (env : Env) (ps : ProjectSpec) (s : OState) (hs : RefInv ps s) :
    RefInv ps (step env ps s) := by
  obtain ⟨ph, mem, pers⟩ := s
  obtain ⟨hmem, hpers, hB, hG, hC, hP⟩ := hs
  simp only at hmem hpers
  cases ph with
  | Idle =>
      exact ⟨hmem, hpers, by simp [step], by simp [step], by simp [step], by simp [step]⟩
  | Planning =>
      cases hn : next mem ps with
      | error e =>
          rw [step_Planning_error env ps mem pers e hn]
          exact ⟨hmem, hpers, by simp, by simp, by simp, by simp⟩
      | ok o =>
          cases o with
          | none =>
              cases hb : anyBlocked mem ps with
              | true =>
                  rw [step_Planning_none_blocked env ps mem pers hn hb]
                  exact ⟨hmem, hmem, by simp, by simp, by simp, by simp⟩
              | false =>
                  rw [step_Planning_none_done env ps mem pers hn hb]
                  exact ⟨hmem, hmem, by simp, by simp, by simp, by simp⟩
          | some f =>
              rw [step_Planning_some env ps mem pers f hn]
              have hf : f ∈ ps.names := next_some_declared mem ps f hn
              refine ⟨ReferencesOnly_setStatus ps mem f .InProgress hmem hf, hpers,
                ?_, by simp, by simp, by simp⟩
              intro f' a' h'
              injection h' with h1 h2
              rw [← h1]
              exact hf
  | Building f a =>
      have hf := hB f a rfl
      refine ⟨hmem, hpers, by simp [step], ?_, by simp [step], by simp [step]⟩
      intro f' a' pend' h'
      simp only [step] at h'
      injection h' with h1
      rw [← h1]
      exact hf
  | Gating f a pend =>
      have hf := hG f a pend rfl
      cases pend with
      | nil =>
          refine ⟨ReferencesOnly_setStatus ps mem f _ hmem hf, hpers,
            by simp [step], by simp [step], ?_, by simp [step]⟩
          intro f' h'
          simp only [step] at h'
          injection h' with h1
          rw [← h1]
          exact hf
      | cons g rest =>
          cases hg : env.gatePass f a g with
          | true =>
              rw [step_Gating_pass env ps mem pers f a g rest hg]
              refine ⟨ReferencesOnly_setStatus ps mem f _ hmem hf, hpers,
                by simp, ?_, by simp, by simp⟩
              intro f' a' pend' h'
              injection h' with h1
              rw [← h1]
              exact hf
          | false =>
              by_cases ha : a < env.attemptBound
              · rw [step_Gating_fail_retry env ps mem pers f a g rest hg ha]
                refine ⟨hmem, hpers, ?_, by simp, by simp, by simp⟩
                intro f' a' h'
                injection h' with h1
                rw [← h1]
                exact hf
              · rw [step_Gating_fail_block env ps mem pers f a g rest hg ha]
                exact ⟨ReferencesOnly_setStatus ps mem f _ hmem hf, hpers,
                  by simp, by simp, by simp, by simp⟩
  | Checkpointing f =>
      have hf := hC f rfl
      refine ⟨hmem, hpers, by simp [step], by simp [step], by simp [step], ?_⟩
      intro f' h'
      simp only [step] at h'
      injection h' with h1
      rw [← h1]
      exact hf
  | Persisting f =>
      exact ⟨hmem, hmem, by simp [step], by simp [step], by simp [step], by simp [step]⟩
  | Done => exact ⟨hmem, hpers, hB, hG, hC, hP⟩
  | BlockedTerm => exact ⟨hmem, hpers, hB, hG, hC, hP⟩
  | Failed e => exact ⟨hmem, hpers, hB, hG, hC, hP⟩

/-- C8: pruning drops every Feature entry not declared in the current
ProjectSpec, and from a pruned record an entire orchestrator run — which
reads the record at `Idle` and overwrites the persisted snapshot as it goes
— keeps both the in-memory and the persisted MemoryRecord free of
references to undeclared Features. -/
theorem prune_references_only (m : MemoryRecord) (ps : ProjectSpec) (env : Env) (n : Nat) :
    ReferencesOnly ps (prune m ps) ∧
    ReferencesOnly ps ((run env ps n (initState (prune m ps))).mem) ∧
    ReferencesOnly ps ((run env ps n (initState (prune m ps))).persisted) := by
  have hpr : ReferencesOnly ps (prune m ps) := by
    intro pr hpr
    have := List.of_mem_filter hpr
    exact of_decide_eq_true this
  have hinv : RefInv ps (run env ps n (initState (prune m ps)))  := by
    refine run_invariant env ps (RefInv ps) (RefInv_step env ps) n _ ?_
    exact ⟨hpr, hpr, by simp [initState], by simp [initState], by simp [initState],
      by simp [initState]⟩
  exact ⟨hpr, hinv.1, hinv.2.1⟩

/-- Invariant for C5: a terminal `Done` state has its MemoryRecord
persisted, its plan exhausted, and no feature `Blocked`. -/
def DoneInv (ps : ProjectSpec) (s : OState) : Prop :=
  s.phase = .Done →
    s.mem = s.persisted ∧ next s.mem ps = .ok none ∧ anyBlocked s.mem ps = false

theorem DoneInv_step (env : Env) (ps : ProjectSpec) (s : OState) (hs : DoneInv ps s) :
    DoneInv ps (step env ps s) := by
  obtain ⟨ph, mem, pers⟩ := s
  cases ph with
  | Idle => exact fun h => Phase.noConfusion h
  | Planning =>
      cases hn : next mem ps with
      | error e =>
          rw [step_Planning_error env ps mem pers e hn]
          exact fun h => Phase.noConfusion h
      | ok o =>
          cases o with
          | none =>
              cases hb : anyBlocked mem ps with
              | true =>
                  rw [step_Planning_none_blocked env ps mem pers hn hb]
                  exact fun h => Phase.noConfusion h
              | false =>
                  rw [step_Planning_none_done env ps mem pers hn hb]
                  exact fun _ => ⟨rfl, hn, hb⟩
          | some f =>
              rw [step_Planning_some env ps mem pers f hn]
              exact fun h => Phase.noConfusion h
  | Building f a => exact fun h => Phase.noConfusion h
  | Gating f a pend =>
      cases pend with
      | nil => exact fun h => Phase.noConfusion h
      | cons g rest =>
          cases hg : env.gatePass f a g with
          | true =>
              rw [step_Gating_pass env ps mem pers f a g rest hg]
              exact fun h => Phase.noConfusion h
          | false =>
              by_cases ha : a < env.attemptBound
              · rw [step_Gating_fail_retry env ps mem pers f a g rest hg ha]
                exact fun h => Phase.noConfusion h
              · rw [step_Gating_fail_block env ps mem pers f a g rest hg ha]
                exact fun h => Phase.noConfusion h
  | Checkpointing f => exact fun h => Phase.noConfusion h
  | Persisting f => exact fun h => Phase.noConfusion h
  | Done => exact hs
  | BlockedTerm => exact fun h => Phase.noConfusion h
  | Failed e => exact fun h => Phase.noConfusion h

/-- C5: if a run of the Orchestrator terminates in `Done`, its in-memory
record equals the persisted one, the Planner's `next` on the persisted
record is `none`, and a second invocation on that persisted record is a
no-op: after its first `Planning` step it is terminally `Done` (from step 2
of the second run onward) with the persisted MemoryRecord unchanged —
regardless of the second run's gate environment. -/
theorem idempotent_resume (env env' : Env) (ps : ProjectSpec) (m₀ : MemoryRecord)
    (n : Nat) (hdone : (run env ps n (initState m₀)).phase = .Done) :
    next (run env ps n (initState m₀)).persisted ps = .ok none ∧
    (run env ps n (initState m₀)).mem = (run env ps n (initState m₀)).persisted ∧
    ∀ k, 2 ≤ k →
      run env' ps k (initState (run env ps n (initState m₀)).persisted) =
        ⟨.Done, (run env ps n (initState m₀)).persisted,
          (run env ps n (initState m₀)).persisted⟩ := by
  have hinv : DoneInv ps (run env ps n (initState m₀)) :=
    run_invariant env ps (DoneInv ps) (DoneInv_step env ps) n _
      (fun h => Phase.noConfusion h)
  obtain ⟨hmp, hnext, hb⟩ := hinv hdone
  rw [hmp] at hnext hb
  refine ⟨hnext, hmp, ?_⟩
  intro k hk
  obtain ⟨j, rfl⟩ : ∃ j, k = 2 + j := ⟨k - 2, by omega⟩
  rw [run_add]
  have hrun2 : run env' ps 2 (initState (run env ps n (initState m₀)).persisted) =
      ⟨.Done, (run env ps n (initState m₀)).persisted,
        (run env ps n (initState m₀)).persisted⟩ := by
    show step env' ps (step env' ps (initState _)) = _
    rw [show step env' ps (initState (run env ps n (initState m₀)).persisted) =
      ⟨.Planning, (run env ps n (initState m₀)).persisted,
        (run env ps n (initState m₀)).persisted⟩ from rfl]
    exact step_Planning_none_done env' ps _ _ hnext hb
  rw [hrun2]
  exact run_fix env' ps _ rfl j

/-- Witness for C5: a full run on the one-feature spec reaches `Done` in 11
steps; the second run is terminally `Done` with the same persisted record
by its second step. -/
theorem idempotent_resume_witness :
    next (run envAllPass specOne 11 (initState emptyRecord)).persisted specOne = .ok none ∧
    run envAllPass specOne 3
        (initState (run envAllPass specOne 11 (initState emptyRecord)).persisted) =
      ⟨.Done, (run envAllPass specOne 11 (initState emptyRecord)).persisted,
        (run envAllPass specOne 11 (initState emptyRecord)).persisted⟩ :=
  ⟨(idempotent_resume envAllPass envAllPass specOne emptyRecord 11 (by decide)).1,
   (idempotent_resume envAllPass envAllPass specOne emptyRecord 11 (by decide)).2.2 3
     (by decide)⟩

theorem statusOf_advanceFeature_same (m : MemoryRecord) (n : String) (target : Status) :
    statusOf (advanceFeature m n target) n = advanceStatus (statusOf m n) target :=
  statusOf_setStatus_same m n _

theorem statusOf_advanceFeature_other (m : MemoryRecord) (n n' : String) (target : Status)
    (hne : n' ≠ n) : statusOf (advanceFeature m n target) n' = statusOf m n' :=
  statusOf_setStatus_other m n n' _ hne

/-- Minimum gate tier the feature under gating has already reached, given
the still-pending suffix of the pipeline. -/
def preTier : List GateKind → Nat
  | [] => 2
  | g :: _ =>
      match g with
      | .designGate => 1
      | _ => 0

/-- Invariant for C1: in a `Gating` state the pending gates are a suffix of
the pipeline and the feature under gating has already reached the tier
conferred by the gates no longer pending (or is `Blocked`). -/
def GInv (s : OState) : Prop :=
  ∀ f a pend, s.phase = .Gating f a pend →
    (pend = gateSeq ∨ pend = [.persistenceGate, .placeholderGate, .designGate] ∨
      pend = [.placeholderGate, .designGate] ∨ pend = [.designGate] ∨ pend = ([] : List GateKind)) ∧
    (statusOf s.mem f = .Blocked ∨ preTier pend ≤ tier (statusOf s.mem f))

theorem GInv_step (env : Env) (ps : ProjectSpec) (s : OState) (hs : GInv s) :
    GInv (step env ps s) := by
  obtain ⟨ph, mem, pers⟩ := s
  cases ph with
  | Idle => exact fun f a pend h => Phase.noConfusion h
  | Planning =>
      cases hn : next mem ps with
      | error e =>
          rw [step_Planning_error env ps mem pers e hn]
          exact fun f a pend h => Phase.noConfusion h
      | ok o =>
          cases o with
          | none =>
              cases hb : anyBlocked mem ps with
              | true =>
                  rw [step_Planning_none_blocked env ps mem pers hn hb]
                  exact fun f a pend h => Phase.noConfusion h
              | false =>
                  rw [step_Planning_none_done env ps mem pers hn hb]
                  exact fun f a pend h => Phase.noConfusion h
          | some f0 =>
              rw [step_Planning_some env ps mem pers f0 hn]
              exact fun f a pend h => Phase.noConfusion h
  | Building f a =>
      intro f' a' pend' h'
      simp only [step] at h'
      injection h' with h1 h2 h3
      subst h1
      subst h3
      exact ⟨Or.inl rfl, Or.inr (Nat.zero_le _)⟩
  | Gating f a pend =>
      obtain ⟨hsuffix, htier⟩ := hs f a pend rfl
      simp only at htier
      cases pend with
      | nil => exact fun f' a' pend' h' => Phase.noConfusion h'
      | cons g rest =>
          cases hg : env.gatePass f a g with
          | false =>
              by_cases ha : a < env.attemptBound
              · rw [step_Gating_fail_retry env ps mem pers f a g rest hg ha]
                exact fun f' a' pend' h' => Phase.noConfusion h'
              · rw [step_Gating_fail_block env ps mem pers f a g rest hg ha]
                exact fun f' a' pend' h' => Phase.noConfusion h'
          | true =>
              rw [step_Gating_pass env ps mem pers f a g rest hg]
              intro f' a' pend' h'
              injection h' with h1 h2 h3
              subst h1
              subst h3
              simp only [statusOf_advanceFeature_same]
              rcases hsuffix with h | h | h | h | h
              · rw [gateSeq] at h
                injection h with hg1 hg2
                subst hg1; subst hg2
                refine ⟨Or.inr (Or.inl rfl), ?_⟩
                cases hst : statusOf mem f <;>
                  simp [advanceStatus, conferred, tier, preTier, hst]
              · injection h with hg1 hg2
                subst hg1; subst hg2
                refine ⟨Or.inr (Or.inr (Or.inl rfl)), ?_⟩
                cases hst : statusOf mem f <;>
                  simp [advanceStatus, conferred, tier, preTier, hst]
              · injection h with hg1 hg2
                subst hg1; subst hg2
                refine ⟨Or.inr (Or.inr (Or.inr (Or.inl rfl))), ?_⟩
                cases hst : statusOf mem f <;>
                  simp [advanceStatus, conferred, tier, preTier, hst]
              · injection h with hg1 hg2
                subst hg1; subst hg2
                refine ⟨Or.inr (Or.inr (Or.inr (Or.inr rfl))), ?_⟩
                cases hst : statusOf mem f
                · rw [hst] at htier
                  simp [preTier, tier] at htier
                · rw [hst] at htier
                  simp [preTier, tier] at htier
                · decide
                · decide
                · decide
                · decide
              · exact absurd h (by simp)
  | Checkpointing f => exact fun f' a' pend' h' => Phase.noConfusion h'
  | Persisting f => exact fun f' a' pend' h' => Phase.noConfusion h'
  | Done => exact hs
  | BlockedTerm => exact hs
  | Failed e => exact hs

theorem step_Gating_nil (env : Env) (ps : ProjectSpec) (mem pers : MemoryRecord)
    (f : String) (a : Nat) :
    step env ps ⟨.Gating f a [], mem, pers⟩ =
      ⟨.Checkpointing f, advanceFeature mem f .Complete, pers⟩ := rfl

theorem step_tier_prop (env : Env) (ps : ProjectSpec) (s : OState) (hs : GInv s)
    (name : String) :
    (statusOf s.mem name = .Blocked → statusOf (step env ps s).mem name = .Blocked) ∧
    (statusOf (step env ps s).mem name = .Blocked ∨
      (tier (statusOf s.mem name) ≤ tier (statusOf (step env ps s).mem name) ∧
       tier (statusOf (step env ps s).mem name) ≤ tier (statusOf s.mem name) + 1)) := by
  obtain ⟨ph, mem, pers⟩ := s
  cases ph with
  | Idle => exact ⟨id, Or.inr ⟨le_refl _, Nat.le_succ _⟩⟩
  | Planning =>
      cases hn : next mem ps with
      | error e =>
          rw [step_Planning_error env ps mem pers e hn]
          exact ⟨id, Or.inr ⟨le_refl _, Nat.le_succ _⟩⟩
      | ok o =>
          cases o with
          | none =>
              cases hb : anyBlocked mem ps with
              | true =>
                  rw [step_Planning_none_blocked env ps mem pers hn hb]
                  exact ⟨id, Or.inr ⟨le_refl _, Nat.le_succ _⟩⟩
              | false =>
                  rw [step_Planning_none_done env ps mem pers hn hb]
                  exact ⟨id, Or.inr ⟨le_refl _, Nat.le_succ _⟩⟩
          | some f0 =>
              rw [step_Planning_some env ps mem pers f0 hn]
              by_cases hname : name = f0
              · subst hname
                have hel :=
                  (eligibleName_status mem ps name (next_some_eligibleName mem ps name hn)).1
                dsimp only
                rw [statusOf_setStatus_same]
                constructor
                · intro hB
                  rcases hel with h | h <;> rw [hB] at h <;> exact Status.noConfusion h
                · right
                  rcases hel with h | h <;> rw [h] <;> simp [tier]
              · dsimp only
                rw [statusOf_setStatus_other mem f0 name .InProgress hname]
                exact ⟨id, Or.inr ⟨le_refl _, Nat.le_succ _⟩⟩
  | Building f a => exact ⟨id, Or.inr ⟨le_refl _, Nat.le_succ _⟩⟩
  | Gating f a pend =>
      cases pend with
      | nil =>
          have htier := (hs f a [] rfl).2
          simp only at htier
          rw [step_Gating_nil env ps mem pers f a]
          by_cases hname : name = f
          · subst hname
            dsimp only
            rw [statusOf_advanceFeature_same]
            cases hst : statusOf mem name
            · rw [hst] at htier
              simp [preTier, tier] at htier
            · rw [hst] at htier
              simp [preTier, tier] at htier
            · rw [hst] at htier
              simp [preTier, tier] at htier
            · decide
            · decide
            · decide
          · dsimp only
            rw [statusOf_advanceFeature_other mem f name .Complete hname]
            exact ⟨id, Or.inr ⟨le_refl _, Nat.le_succ _⟩⟩
      | cons g rest =>
          cases hg : env.gatePass f a g with
          | false =>
              by_cases ha : a < env.attemptBound
              · rw [step_Gating_fail_retry env ps mem pers f a g rest hg ha]
                exact ⟨id, Or.inr ⟨le_refl _, Nat.le_succ _⟩⟩
              · rw [step_Gating_fail_block env ps mem pers f a g rest hg ha]
                by_cases hname : name = f
                · subst hname
                  dsimp only
                  rw [statusOf_setStatus_same]
                  exact ⟨fun _ => rfl, Or.inl rfl⟩
                · dsimp only
                  rw [statusOf_setStatus_other mem f name .Blocked hname]
                  exact ⟨id, Or.inr ⟨le_refl _, Nat.le_succ _⟩⟩
          | true =>
              rw [step_Gating_pass env ps mem pers f a g rest hg]
              by_cases hname : name = f
              · subst hname
                dsimp only
                rw [statusOf_advanceFeature_same]
                cases g with
                | schemaGate =>
                    cases hst : statusOf mem name <;> decide
                | persistenceGate =>
                    cases hst : statusOf mem name <;> decide
                | placeholderGate =>
                    cases hst : statusOf mem name <;> decide
                | designGate =>
                    have htier := (hs name a (.designGate :: rest) rfl).2
                    simp only at htier
                    cases hst : statusOf mem name
                    · rw [hst] at htier
                      simp [preTier, tier] at htier
                    · rw [hst] at htier
                      simp [preTier, tier] at htier
                    · decide
                    · decide
                    · decide
                    · decide
              · dsimp only
                rw [statusOf_advanceFeature_other mem f name (conferred g) hname]
                exact ⟨id, Or.inr ⟨le_refl _, Nat.le_succ _⟩⟩
  | Checkpointing f => exact ⟨id, Or.inr ⟨le_refl _, Nat.le_succ _⟩⟩
  | Persisting f => exact ⟨id, Or.inr ⟨le_refl _, Nat.le_succ _⟩⟩
  | Done => exact ⟨id, Or.inr ⟨le_refl _, Nat.le_succ _⟩⟩
  | BlockedTerm => exact ⟨id, Or.inr ⟨le_refl _, Nat.le_succ _⟩⟩
  | Failed e => exact ⟨id, Or.inr ⟨le_refl _, Nat.le_succ _⟩⟩

/-- C1: along every orchestrator execution, every feature's status moves
only forward through the gate tiers (Functional = 1, Designed = 2,
Complete = 3), at most one tier per step and never regressing, the only
non-forward transition being the explicit move to `Blocked`; `Blocked`
itself is never left. -/
theorem status_monotone_step (env : Env) (ps : ProjectSpec) (m₀ : MemoryRecord)
    (n : Nat) (name : String) :
    (statusOf (run env ps n (initState m₀)).mem name = .Blocked →
      statusOf (run env ps (n + 1) (initState m₀)).mem name = .Blocked) ∧
    (statusOf (run env ps (n + 1) (initState m₀)).mem name = .Blocked ∨
      (tier (statusOf (run env ps n (initState m₀)).mem name) ≤
        tier (statusOf (run env ps (n + 1) (initState m₀)).mem name) ∧
       tier (statusOf (run env ps (n + 1) (initState m₀)).mem name) ≤
        tier (statusOf (run env ps n (initState m₀)).mem name) + 1)) := by
  have hginv : GInv (run env ps n (initState m₀)) :=
    run_invariant env ps GInv (GInv_step env ps) n _
      (fun f a pend h => Phase.noConfusion h)
  rw [run_succ_outer]
  exact step_tier_prop env ps _ hginv name

/-- Witness for C1: the step property instantiated on the all-pass
one-feature run at the gating step that confers `Complete`. -/
theorem status_monotone_step_witness :
    (statusOf (run envAllPass specOne 7 (initState emptyRecord)).mem "A" = .Blocked →
      statusOf (run envAllPass specOne 8 (initState emptyRecord)).mem "A" = .Blocked) ∧
    (statusOf (run envAllPass specOne 8 (initState emptyRecord)).mem "A" = .Blocked ∨
      (tier (statusOf (run envAllPass specOne 7 (initState emptyRecord)).mem "A") ≤
        tier (statusOf (run envAllPass specOne 8 (initState emptyRecord)).mem "A") ∧
       tier (statusOf (run envAllPass specOne 8 (initState emptyRecord)).mem "A") ≤
        tier (statusOf (run envAllPass specOne 7 (initState emptyRecord)).mem "A") + 1)) :=
  status_monotone_step envAllPass specOne emptyRecord 7 "A"

end Oneshot
